import Mathlib

/-!
Verification development for the `mancala` crate.

The Rust sources are shallowly embedded:
* `game/mod.rs` : `Position`, `Game`, sowing/capture/turn logic.
  Stone counts are Rust `u8` values; they are modelled as `Nat` with an
  explicit `% 256` (`w8`) at every place the source truncates (`as` casts)
  or wraps (`u8` additions).  Scores are Rust `i8`; the `u8 -> i8` cast and
  the wrapping `i8` subtraction are modelled by `toI8`/`wrapI8`.
* `strategy/heuristic.rs`, `strategy/tree/mod.rs` : the `Value` order with
  two infinities.  `Value.opposite` negates the `i8` payload; like the
  other `u8`/`i8` arithmetic it is modelled with the release-build
  wrapping semantics (`wrapI8`), under which the negation of `-128`
  wraps back to `-128` (a debug build of the source panics there).
* `strategy/tree/minmax.rs`, `strategy/tree/alphabeta.rs` : the searches.
  Both recursions are embedded with an explicit fuel parameter (`none`
  means the fuel ran out) and both results carry the number of recursive
  invocations, which is what the `Analyzer` of `minmax.rs` counts.
-/

namespace Mancala

/-- Wrapping to a `u8` value (`as Stones` casts and wrapping `u8` addition). -/
def w8 (n : Nat) : Nat := n % 256

/-- The value of a `u8` reinterpreted as an `i8` (Rust `as Score` cast). -/
def toI8 (n : Nat) : Int := if n % 256 < 128 then (n % 256 : Int) else (n % 256 : Int) - 256

/-- Wrapping `i8` arithmetic result into `[-128, 128)`. -/
def wrapI8 (z : Int) : Int := (z + 128) % 256 - 128

/-- `Player` from `game/mod.rs`. -/
inductive Player where
  | Red : Player
  | Blue : Player
deriving DecidableEq

/-- `Player::other`. -/
def Player.other : Player → Player
  | .Red => .Blue
  | .Blue => .Red

/-- `Position` from `game/mod.rs`: `player`, `size`, `capture: [Stones; 2]`,
`bowls: Vec<Stones>`. -/
structure Position where
  player : Player
  size : Nat
  capture : Nat × Nat
  bowls : List Nat
deriving DecidableEq

/-- The `From<[Stones; N]> for Position` impl: red to move, `size = N/2`,
empty captures. -/
def Position.ofList (l : List Nat) : Position :=
  { player := .Red, size := l.length / 2, capture := (0, 0), bowls := l }

namespace Position

/-- `self.bowls[bowl]` (list lookup, default 0). -/
def stonesAt (p : Position) (bowl : Nat) : Nat := p.bowls.getD bowl 0

/-- `let tour = 2 * self.size + 1`. -/
def tour (p : Position) : Nat := 2 * p.size + 1

/-- `let all_gain = stones as usize / tour`. -/
def allGain (p : Position) (bowl : Nat) : Nat := p.stonesAt bowl / p.tour

/-- `let extra = stones as usize % tour`. -/
def extra (p : Position) (bowl : Nat) : Nat := p.stonesAt bowl % p.tour

/-- `let final_index = bowl + extra`. -/
def finalIndex (p : Position) (bowl : Nat) : Nat := bowl + p.extra bowl

/-- The bowls after emptying the played bowl and adding `all_gain`
everywhere: `bowls.iter().map(|s| (*s as usize + all_gain) as Stones)`. -/
def sowBowls1 (p : Position) (bowl : Nat) : List Nat :=
  (p.bowls.set bowl 0).map (fun s => w8 (s + p.allGain bowl))

/-- The upper bound of the remainder loop `1..=upper`. -/
def sowUpper (p : Position) (bowl : Nat) : Nat :=
  if p.size ≤ p.finalIndex bowl then p.extra bowl - 1 else p.extra bowl

/-- One `bowls[j] += 1` step (wrapping `u8` addition). -/
def bump (bs : List Nat) (j : Nat) : List Nat := bs.set j (w8 (bs.getD j 0 + 1))

/-- The indices `(bowl + i) % (2 * size)` for `i` in `1..=upper`. -/
def sowIdxs (p : Position) (bowl : Nat) : List Nat :=
  (List.range (p.sowUpper bowl)).map (fun i => (bowl + (i + 1)) % (2 * p.size))

/-- The bowls after the remainder loop. -/
def sowBowls2 (p : Position) (bowl : Nat) : List Nat :=
  (p.sowIdxs bowl).foldl bump (p.sowBowls1 bowl)

/-- The capture condition `final_index < self.size && bowls[final_index] == 1`. -/
def capturing (p : Position) (bowl : Nat) : Bool :=
  decide (p.finalIndex bowl < p.size) && ((p.sowBowls2 bowl).getD (p.finalIndex bowl) 0 == 1)

/-- `let index = 2 * self.size - 1 - final_index`. -/
def oppositeIdx (p : Position) (bowl : Nat) : Nat := 2 * p.size - 1 - p.finalIndex bowl

/-- `captured`: contents of the opposite bowl when a capture triggers, else 0. -/
def capturedAmt (p : Position) (bowl : Nat) : Nat :=
  if p.capturing bowl then (p.sowBowls2 bowl).getD (p.oppositeIdx bowl) 0 else 0

/-- The bowls after the capture step (`bowls[index] = 0`). -/
def sowBowls3 (p : Position) (bowl : Nat) : List Nat :=
  if p.capturing bowl then (p.sowBowls2 bowl).set (p.oppositeIdx bowl) 0 else p.sowBowls2 bowl

/-- `let capture_gain = all_gain + captured + if final_index >= self.size { 1 } else { 0 }`. -/
def captureGain (p : Position) (bowl : Nat) : Nat :=
  p.allGain bowl + p.capturedAmt bowl + (if p.size ≤ p.finalIndex bowl then 1 else 0)

/-- `[self.capture[0] + capture_gain as Stones, self.capture[1]]`
(truncating cast followed by wrapping `u8` addition). -/
def sowCapPair (p : Position) (bowl : Nat) : Nat × Nat :=
  (w8 (p.capture.1 + w8 (p.captureGain bowl)), p.capture.2)

/-- `let change_player = final_index != self.size`. -/
def changePlayer (p : Position) (bowl : Nat) : Bool := decide (p.finalIndex bowl ≠ p.size)

/-- `Vec::rotate_left(n)`: move the first `n` entries to the back. -/
def rotL (n : Nat) (l : List Nat) : List Nat := l.drop n ++ l.take n

/-- `Position::sow`. -/
def sow (p : Position) (bowl : Nat) : Position :=
  if p.changePlayer bowl then
    { player := p.player.other
      size := p.size
      capture := ((p.sowCapPair bowl).2, (p.sowCapPair bowl).1)
      bowls := rotL p.size (p.sowBowls3 bowl) }
  else
    { player := p.player
      size := p.size
      capture := p.sowCapPair bowl
      bowls := p.sowBowls3 bowl }

/-- `Position::play`: `None` when the chosen bowl is empty. -/
def play (p : Position) (bowl : Nat) : Option Position :=
  if 0 < p.stonesAt bowl then some (p.sow bowl) else none

/-- `Position::options`: indices of the non-empty bowls of the current side. -/
def options (p : Position) : List Nat :=
  ((p.bowls.take p.size).enum).filterMap (fun is => if 0 < is.2 then some is.1 else none)

/-- `Position::finished`: the current side is entirely empty. -/
def finished (p : Position) : Bool := (p.bowls.take p.size).all (fun s => s == 0)

/-- The score formula of `Position::score` (wrapping `u8` sums, `as Score`
casts, wrapping `i8` subtraction). -/
def scoreOf (p : Position) : Int :=
  wrapI8 (toI8 (w8 ((p.bowls.take p.size).sum + p.capture.1)) -
          toI8 (w8 (((p.bowls.drop p.size).take p.size).sum + p.capture.2)))

/-- `Position::score`: `None` while the game is unfinished. -/
def score (p : Position) : Option Int := if p.finished then some p.scoreOf else none

/-- `Position::delta`: `capture[0] as Score - capture[1] as Score`. -/
def delta (p : Position) : Int := wrapI8 (toI8 p.capture.1 - toI8 p.capture.2)

/-- `Position::turn`. -/
def turn (p : Position) : Player := p.player

/-- Total stone count of a board: `sum(bowls) + capture[0] + capture[1]`. -/
def stoneTotal (p : Position) : Nat := p.bowls.sum + p.capture.1 + p.capture.2

end Position

/-- `FoulPlay` from `game/mod.rs`. -/
inductive FoulPlay where
  | NoStonesInBowl : FoulPlay
deriving DecidableEq

/-- `Game` from `game/mod.rs`: current position plus move history. -/
structure Game where
  current : Position
  history : List (Player × Nat)
deriving DecidableEq

/-- `Game::play` (`&mut self` modelled by returning the updated game next to
the `Result`): push `(player, bowl)` and advance on success, report
`NoStonesInBowl` and leave the game untouched on failure. -/
def Game.play (g : Game) (bowl : Nat) : Except FoulPlay Unit × Game :=
  match g.current.play bowl with
  | some position =>
      (Except.ok (), { current := position, history := g.history ++ [(g.current.player, bowl)] })
  | none => (Except.error FoulPlay.NoStonesInBowl, g)

/-- `Value` from `strategy/tree/mod.rs` (identical to the copy in
`strategy/heuristic.rs`): a score extended with two infinities.  The score
payload is the value of the Rust `i8`. -/
inductive Value where
  | NegativeInfinity : Value
  | Actual : Int → Value
  | PositiveInfinity : Value
deriving DecidableEq

namespace Value

/-- The `Ord` impl of `Value`: infinities at the ends, finite scores by
integer comparison. -/
def cmp : Value → Value → Ordering
  | .NegativeInfinity, .NegativeInfinity => .eq
  | .NegativeInfinity, _ => .lt
  | .Actual _, .NegativeInfinity => .gt
  | .Actual x, .Actual y => if x < y then .lt else if x = y then .eq else .gt
  | .Actual _, .PositiveInfinity => .lt
  | .PositiveInfinity, .PositiveInfinity => .eq
  | .PositiveInfinity, _ => .gt

/-- `Value::opposite`: swap the infinities, negate finite scores.  The
`i8` negation wraps: the opposite of `-128` is `-128` again (release
semantics; a debug build panics on this overflow). -/
def opposite : Value → Value
  | .NegativeInfinity => .PositiveInfinity
  | .Actual s => .Actual (wrapI8 (-s))
  | .PositiveInfinity => .NegativeInfinity

instance : LinearOrder Value where
  le a b := a.cmp b ≠ .gt
  lt a b := a.cmp b = .lt
  le_refl a := by cases a <;> simp [cmp]
  le_trans a b c hab hbc := by
    cases a <;> cases b <;> cases c <;> simp_all [cmp] <;> omega
  le_antisymm a b hab hba := by
    cases a <;> cases b <;> simp_all [cmp] <;> omega
  le_total a b := by
    cases a <;> cases b <;> simp_all [cmp] <;> omega
  lt_iff_le_not_le a b := by
    cases a <;> cases b <;> simp_all [cmp] <;> omega
  decidableLE a b := inferInstanceAs (Decidable (a.cmp b ≠ .gt))
  decidableLT a b := inferInstanceAs (Decidable (a.cmp b = .lt))
  decidableEq := inferInstance

/-- `std::cmp::max` on `Value` (returns the second argument on ties). -/
def maxv (a b : Value) : Value := if a.cmp b = .gt then a else b

end Value

/-- `Depth` from `strategy/tree/mod.rs`. -/
inductive Depth where
  | Infinite : Depth
  | Limit : Nat → Depth
deriving DecidableEq

namespace Depth

/-- `Depth::is_zero`. -/
def is_zero : Depth → Bool
  | .Infinite => false
  | .Limit d => d == 0

/-- `Depth::decrement` (saturating). -/
def decrement : Depth → Depth
  | .Infinite => .Infinite
  | .Limit d => if d = 0 then .Limit 0 else .Limit (d - 1)

end Depth

/-- The `Delta` heuristic (`alphabeta.rs` / `heuristic.rs`):
`Value::Actual(position.delta())`. -/
def deltaH : Position → Value := fun p => Value.Actual p.delta

/-- Search results: the chosen bowl, the value, and the number of recursive
invocations (what `Analyzer::count` tallies for `minmax`). -/
abbrev SearchResult := Option Nat × Value × Nat

/-- The `for bowl in position.options()` loop of `minmax`, threading the
best bowl/value and the node count.  `rec` is the recursive call at the
remaining fuel; `none` aborts the whole computation (out of fuel). -/
def mmLoop (rec : Position → Option SearchResult) (p : Position) :
    List Nat → Option Nat → Value → Nat → Option SearchResult
  | [], bb, bv, cnt => some (bb, bv, cnt)
  | bowl :: rest, bb, bv, cnt =>
    match rec (p.sow bowl) with
    | none => none
    | some t =>
      let v := if (p.sow bowl).turn = p.turn then t.2.1 else t.2.1.opposite
      if bv < v then mmLoop rec p rest (some bowl) v (cnt + t.2.2)
      else mmLoop rec p rest bb bv (cnt + t.2.2)

/-- `minmax` from `strategy/tree/minmax.rs`, with fuel.  On a finished
position the score is exact; otherwise every playable bowl is searched,
values are negated across turn changes, and the best bowl is kept under
strict improvement. -/
def minmaxF : Nat → Position → Option SearchResult
  | 0, _ => none
  | fuel + 1, p =>
    if p.finished then some (none, Value.Actual p.scoreOf, 1)
    else mmLoop (minmaxF fuel) p p.options none Value.NegativeInfinity 1

/-- The `for bowl in position.options()` loop of `alpha_beta`: same shape
as `mmLoop` plus the `(alpha, beta)` window, the window flip across turn
changes, and the `alpha >= beta` break. -/
def abLoop (rec : Position → Value → Value → Depth → Option SearchResult)
    (p : Position) (beta : Value) (d : Depth) :
    List Nat → Value → Option Nat → Value → Nat → Option SearchResult
  | [], _, bb, bv, cnt => some (bb, bv, cnt)
  | bowl :: rest, alpha, bb, bv, cnt =>
    match (if (p.sow bowl).turn = p.turn then rec (p.sow bowl) alpha beta d.decrement
           else (rec (p.sow bowl) beta.opposite alpha.opposite d.decrement).map
             (fun t => (t.1, t.2.1.opposite, t.2.2))) with
    | none => none
    | some t =>
      let bb' := if bv < t.2.1 then some bowl else bb
      let bv' := if bv < t.2.1 then t.2.1 else bv
      let alpha' := Value.maxv alpha t.2.1
      if beta ≤ alpha' then some (bb', bv', cnt + t.2.2)
      else abLoop rec p beta d rest alpha' bb' bv' (cnt + t.2.2)

/-- `alpha_beta` from `strategy/tree/alphabeta.rs`, with fuel: exact score
on finished positions, heuristic value when the depth budget is exhausted,
otherwise the pruned loop. -/
def alphaBetaF (h : Position → Value) : Nat → Position → Value → Value → Depth → Option SearchResult
  | 0, _, _, _, _ => none
  | fuel + 1, p, alpha, beta, d =>
    if p.finished then some (none, Value.Actual p.scoreOf, 1)
    else if d.is_zero then some (none, h p, 1)
    else abLoop (alphaBetaF h fuel) p beta d p.options alpha none Value.NegativeInfinity 1

/-- The filter of `Position::options`, generalized over the enumeration
offset. -/
def optFilter : Nat × Nat → Option Nat := fun is => if 0 < is.2 then some is.1 else none

/-- Finite scores strictly inside the `i8` range (so excluding `-128`),
on which the wrapping negation of `opposite` is exact; the two
infinities also qualify. -/
def Value.Rep : Value → Prop
  | .Actual s => -127 ≤ s ∧ s ≤ 127
  | _ => True

/-- A well-formed board whose total stone count also fits in the positive
`i8` range: along every legal play from such a board no `u8` operation of
`sow` and no `i8` operation of `score` or `opposite` can wrap. -/
def Position.wfSmall (p : Position) : Prop :=
  p.bowls.length = 2 * p.size ∧ p.stoneTotal ≤ 127

/-- Fail-soft characterisation of an alpha-beta result `r` against the
exact (minmax) value `t` inside the window `(alpha, beta)`: exact inside
the window, an upper bound `≤ alpha` on a fail-low, a lower bound `≥ beta`
on a fail-high. -/
def FS (alpha beta t r : Value) : Prop :=
  (alpha < t → t < beta → r = t) ∧
  (t ≤ alpha → t ≤ r ∧ r ≤ alpha) ∧
  (beta ≤ t → beta ≤ r ∧ r ≤ t)


/-! ### List helpers for `options` and `finished` -/

theorem Value.lt_def (a b : Value) : (a < b) = (a.cmp b = .lt) := rfl

theorem Value.le_def (a b : Value) : (a ≤ b) = (a.cmp b ≠ .gt) := rfl

theorem Value.cmp_eq_gt_iff (a b : Value) : a.cmp b = .gt ↔ b < a := by
  cases a <;> cases b <;> simp [Value.cmp, Value.lt_def] <;> omega

theorem Value.maxv_eq_max (a b : Value) : Value.maxv a b = max a b := by
  rcases le_or_lt a b with h | h
  · rw [Value.maxv, if_neg, max_eq_right h]
    simp only [Value.cmp_eq_gt_iff]
    exact not_lt_of_le h
  · rw [Value.maxv, if_pos, max_eq_left h.le]
    exact (Value.cmp_eq_gt_iff a b).mpr h

theorem wrapI8_small {z : Int} (h1 : -128 ≤ z) (h2 : z ≤ 127) : wrapI8 z = z := by
  unfold wrapI8
  omega

theorem toI8_small {n : Nat} (h : n ≤ 127) : toI8 n = (n : Int) := by
  unfold toI8
  rw [if_pos (by omega)]
  omega

theorem opposite_exact {s : Int} (h1 : -127 ≤ s) (h2 : s ≤ 127) :
    (Value.Actual s).opposite = Value.Actual (-s) := by
  show Value.Actual (wrapI8 (-s)) = Value.Actual (-s)
  rw [wrapI8_small (by omega) (by omega)]

theorem Rep_opposite {v : Value} (h : v.Rep) : v.opposite.Rep := by
  cases v with
  | Actual s =>
    obtain ⟨h1, h2⟩ := h
    rw [opposite_exact h1 h2]
    exact ⟨by omega, by omega⟩
  | NegativeInfinity => trivial
  | PositiveInfinity => trivial

theorem opposite_opposite_rep {v : Value} (h : v.Rep) : v.opposite.opposite = v := by
  cases v with
  | Actual s =>
    obtain ⟨h1, h2⟩ := h
    rw [opposite_exact h1 h2, opposite_exact (by omega) (by omega)]
    rw [neg_neg]
  | NegativeInfinity => rfl
  | PositiveInfinity => rfl

theorem opposite_le_opposite_rep {a b : Value} (ha : a.Rep) (hb : b.Rep) :
    a.opposite ≤ b.opposite ↔ b ≤ a := by
  cases a <;> cases b <;>
    simp_all [Value.Rep, Value.opposite, Value.le_def, Value.cmp, wrapI8] <;> omega

theorem opposite_lt_opposite_rep {a b : Value} (ha : a.Rep) (hb : b.Rep) :
    a.opposite < b.opposite ↔ b < a := by
  cases a <;> cases b <;>
    simp_all [Value.Rep, Value.opposite, Value.lt_def, Value.cmp, wrapI8] <;> omega

@[simp] theorem neg_lt_actual (s : Int) : Value.NegativeInfinity < Value.Actual s := by
  simp [Value.lt_def, Value.cmp]

@[simp] theorem actual_lt_pos (s : Int) : Value.Actual s < Value.PositiveInfinity := by
  simp [Value.lt_def, Value.cmp]

@[simp] theorem neg_le (v : Value) : Value.NegativeInfinity ≤ v := by
  cases v <;> simp [Value.le_def, Value.cmp]

@[simp] theorem le_pos (v : Value) : v ≤ Value.PositiveInfinity := by
  cases v <;> simp [Value.le_def, Value.cmp]

theorem Value.actual_lt_actual_iff {x y : Int} : Value.Actual x < Value.Actual y ↔ x < y := by
  simp [Value.lt_def, Value.cmp]

theorem Value.actual_le_actual_iff {x y : Int} : Value.Actual x ≤ Value.Actual y ↔ x ≤ y := by
  simp [Value.le_def, Value.cmp]
  omega


theorem getD_take (l : List Nat) (n j : Nat) :
    (l.take n).getD j 0 = if j < n then l.getD j 0 else 0 := by
  induction l generalizing n j with
  | nil => simp
  | cons a l ih =>
    cases n with
    | zero => simp
    | succ n =>
      cases j with
      | zero => simp
      | succ j => simpa using ih n j

theorem all_zero_take_iff (l : List Nat) (n : Nat) :
    ((l.take n).all (fun s => s == 0) = true) ↔ ∀ i, i < n → l.getD i 0 = 0 := by
  induction l generalizing n with
  | nil => simp
  | cons a l ih =>
    cases n with
    | zero => simp
    | succ n =>
      simp only [List.take_succ_cons, List.all_cons, Bool.and_eq_true, beq_iff_eq, ih]
      constructor
      · rintro ⟨ha, h⟩ i hi
        cases i with
        | zero => simpa using ha
        | succ i => simpa using h i (by omega)
      · intro h
        refine ⟨by simpa using h 0 (by omega), fun i hi => by simpa using h (i + 1) (by omega)⟩

theorem optFilter_nil_iff (l : List Nat) (k : Nat) :
    (l.enumFrom k).filterMap optFilter = [] ↔ ∀ x ∈ l, x = 0 := by
  induction l generalizing k with
  | nil => simp
  | cons a l ih =>
    by_cases ha : 0 < a
    · simp [List.enumFrom, List.filterMap_cons, optFilter, ha]
      omega
    · simp [List.enumFrom, List.filterMap_cons, optFilter, ha, ih]
      omega

theorem mem_optFilter (l : List Nat) (k i : Nat) :
    i ∈ (l.enumFrom k).filterMap optFilter ↔
      ∃ j, j < l.length ∧ i = k + j ∧ 0 < l.getD j 0 := by
  induction l generalizing k with
  | nil => simp
  | cons a l ih =>
    simp only [List.enumFrom, List.filterMap_cons]
    by_cases ha : 0 < a
    · rw [optFilter, if_pos ha]
      simp only [List.mem_cons, ih]
      constructor
      · rintro (rfl | ⟨j, hj, rfl, hgt⟩)
        · exact ⟨0, by simp, by omega, by simpa using ha⟩
        · exact ⟨j + 1, by simp; omega, by omega, by rw [List.getD_cons_succ]; exact hgt⟩
      · rintro ⟨j, hj, rfl, hgt⟩
        cases j with
        | zero => exact Or.inl (by omega)
        | succ j => exact Or.inr ⟨j, by simpa using hj, by omega, by simpa using hgt⟩
    · rw [optFilter, if_neg ha, ih]
      constructor
      · rintro ⟨j, hj, rfl, hgt⟩
        exact ⟨j + 1, by simp; omega, by omega, by rw [List.getD_cons_succ]; exact hgt⟩
      · rintro ⟨j, hj, rfl, hgt⟩
        cases j with
        | zero => exact absurd (by simpa using hgt) ha
        | succ j =>
          exact ⟨j, by simpa using hj, by omega, by rw [List.getD_cons_succ] at hgt; exact hgt⟩

theorem sorted_optFilter (l : List Nat) (k : Nat) :
    ((l.enumFrom k).filterMap optFilter).Sorted (· < ·) ∧
      ∀ i ∈ (l.enumFrom k).filterMap optFilter, k ≤ i := by
  induction l generalizing k with
  | nil => simp
  | cons a l ih =>
    simp only [List.enumFrom, List.filterMap_cons]
    by_cases ha : 0 < a
    · rw [optFilter, if_pos ha]
      refine ⟨List.sorted_cons.mpr ⟨fun b hb => ?_, (ih (k + 1)).1⟩, ?_⟩
      · have := (ih (k + 1)).2 b hb
        omega
      · intro i hi
        rcases List.mem_cons.mp hi with rfl | hi
        · omega
        · have := (ih (k + 1)).2 i hi
          omega
    · rw [optFilter, if_neg ha]
      refine ⟨(ih (k + 1)).1, fun i hi => ?_⟩
      have := (ih (k + 1)).2 i hi
      omega

theorem options_eq_optFilter (p : Position) :
    p.options = ((p.bowls.take p.size).enumFrom 0).filterMap optFilter := rfl

theorem mem_options (p : Position) (i : Nat) :
    i ∈ p.options ↔ i < p.size ∧ 0 < p.bowls.getD i 0 := by
  rw [options_eq_optFilter, mem_optFilter]
  constructor
  · rintro ⟨j, hj, hij, hgt⟩
    obtain rfl : i = j := by omega
    rw [getD_take] at hgt
    simp only [List.length_take, lt_min_iff] at hj
    split_ifs at hgt with h
    · exact ⟨by omega, hgt⟩
    · omega
  · rintro ⟨hi, hgt⟩
    have hlen : i < p.bowls.length := by
      by_contra hle
      rw [List.getD_eq_default _ _ (by omega)] at hgt
      omega
    refine ⟨i, by simp; omega, by omega, ?_⟩
    rw [getD_take, if_pos hi]
    exact hgt

theorem options_nil_iff (p : Position) : p.options = [] ↔ p.finished = true := by
  rw [options_eq_optFilter, optFilter_nil_iff, Position.finished, List.all_eq_true]
  simp

theorem finished_iff_getD (p : Position) :
    p.finished = true ↔ ∀ i, i < p.size → p.bowls.getD i 0 = 0 := by
  rw [Position.finished, all_zero_take_iff]

theorem play_eq_some_iff (p : Position) (bowl : Nat) (q : Position) :
    p.play bowl = some q ↔ 0 < p.stonesAt bowl ∧ q = p.sow bowl := by
  rw [Position.play]
  split_ifs with h <;> simp [h, eq_comm]

theorem play_of_mem_options (p : Position) (bowl : Nat) (h : bowl ∈ p.options) :
    p.play bowl = some (p.sow bowl) := by
  rw [play_eq_some_iff]
  exact ⟨((mem_options p bowl).mp h).2, rfl⟩

/-! ### Claims C4, C5, C6, C7, C8, C9, C10 -/

/-- Claim C4: for every position and every bowl index in `[0, size)`,
`Position::play` returns `None` exactly when the bowl holds no stones, and
`Game::play` on such a bowl reports `FoulPlay::NoStonesInBowl`. -/
theorem C4_play_fails_iff_empty (p : Position) (bowl : Nat)
    (hwf : p.bowls.length = 2 * p.size) (hb : bowl < p.size) :
    (p.play bowl = none ↔ p.bowls.getD bowl 0 = 0) ∧
    (∀ g : Game, g.current = p →
      ((g.play bowl).1 = Except.error FoulPlay.NoStonesInBowl ↔ p.bowls.getD bowl 0 = 0)) := by
  have hplay : p.play bowl = none ↔ p.bowls.getD bowl 0 = 0 := by
    rw [Position.play, Position.stonesAt]
    rcases Nat.eq_zero_or_pos (p.bowls.getD bowl 0) with h | h
    · rw [if_neg (by omega)]
      exact iff_of_true rfl h
    · rw [if_pos h]
      exact ⟨fun hc => (Option.some_ne_none _ hc).elim, fun h0 => absurd h0 (by omega)⟩
  refine ⟨hplay, fun g hg => ?_⟩
  rw [Game.play, hg]
  cases h : p.play bowl <;> simp_all

/-- Witness for C4 on a concrete board: bowl 1 of `[0, 2, 1, 0]` is empty
on neither side of the iff, bowl 0 is. -/
theorem C4_play_fails_iff_empty_witness :
    ((Position.ofList [0, 2, 1, 0]).play 0 = none ↔
      (Position.ofList [0, 2, 1, 0]).bowls.getD 0 0 = 0) ∧
    (∀ g : Game, g.current = Position.ofList [0, 2, 1, 0] →
      ((g.play 0).1 = Except.error FoulPlay.NoStonesInBowl ↔
        (Position.ofList [0, 2, 1, 0]).bowls.getD 0 0 = 0)) :=
  C4_play_fails_iff_empty (Position.ofList [0, 2, 1, 0]) 0 (by decide) (by decide)

/-- Claim C5: a position is finished exactly when its current side
(indices `[0, size)`) is all empty; `Position::from([0,0,2,2])` is finished
with score `Some(-4)`; `score()` is `None` on unfinished positions. -/
theorem C5_finished_rule_and_score :
    ((Position.ofList [0, 0, 2, 2]).finished = true ∧
      (Position.ofList [0, 0, 2, 2]).score = some (-4)) ∧
    (∀ p : Position,
      (p.finished = true ↔ ∀ i, i < p.size → p.bowls.getD i 0 = 0) ∧
      (p.finished = false → p.score = none)) := by
  refine ⟨⟨by decide, by decide⟩, fun p => ⟨finished_iff_getD p, fun h => ?_⟩⟩
  rw [Position.score, h]
  simp

/-- Witness for C5 at `[1, 1]`: an unfinished position has no score. -/
theorem C5_finished_rule_and_score_witness :
    (Position.ofList [1, 1]).score = none :=
  (C5_finished_rule_and_score.2 (Position.ofList [1, 1])).2 (by decide)

/-- Claim C6: a successful play changes the turn unless the remainder ends
exactly in the mover's store; on a change the player flips, the capture
pair swaps, and the bowls rotate left by `size`; otherwise player, capture
order and bowl order stay. -/
theorem C6_turn_change (p : Position) (bowl : Nat) (q : Position)
    (hq : p.play bowl = some q) :
    (p.finalIndex bowl ≠ p.size →
      q.player = p.player.other ∧
      q.capture = ((p.sowCapPair bowl).2, (p.sowCapPair bowl).1) ∧
      q.bowls = Position.rotL p.size (p.sowBowls3 bowl)) ∧
    (p.finalIndex bowl = p.size →
      q.player = p.player ∧
      q.capture = p.sowCapPair bowl ∧
      q.bowls = p.sowBowls3 bowl) := by
  obtain ⟨-, rfl⟩ := (play_eq_some_iff p bowl q).mp hq
  constructor
  · intro hne
    rw [Position.sow, if_pos (by simpa [Position.changePlayer] using hne)]
    exact ⟨rfl, rfl, rfl⟩
  · intro heq
    rw [Position.sow, if_neg (by simpa [Position.changePlayer] using heq)]
    exact ⟨rfl, rfl, rfl⟩

/-- Witness for C6: playing bowl 1 of `[2,2,2,2]` changes the turn,
playing bowl 1 of `[2,2,2,2,2,2]` keeps it. -/
theorem C6_turn_change_witness :
    ((Position.ofList [2, 2, 2, 2]).sow 1).player = Player.Red.other ∧
    ((Position.ofList [2, 2, 2, 2, 2, 2]).sow 1).player = Player.Red := by
  have h1 := C6_turn_change (Position.ofList [2, 2, 2, 2]) 1
    ((Position.ofList [2, 2, 2, 2]).sow 1) (by decide)
  have h2 := C6_turn_change (Position.ofList [2, 2, 2, 2, 2, 2]) 1
    ((Position.ofList [2, 2, 2, 2, 2, 2]).sow 1) (by decide)
  exact ⟨(h1.1 (by decide)).1, (h2.2 (by decide)).1⟩

/-- Claim C7 counterexample: `opposite` does not negate every finite score
arithmetically. On the minimum `i8` score the negation wraps around:
`opposite (Actual (-128)) = Actual (-128)`, not `Actual 128` (in a debug
build the negation panics instead). -/
theorem C7_opposite_counterexample :
    ¬ ∀ s : Int, -128 ≤ s → s ≤ 127 →
        Value.opposite (Value.Actual s) = Value.Actual (-s) := fun hall =>
  absurd (hall (-128) (by decide) (by decide)) (by decide)

/-- Claim C7 (amended): `Value` is totally ordered with the infinities at
the ends and integer comparison between finite values; `opposite` swaps
the infinities, negates finite scores arithmetically on `-127 ≤ s ≤ 127`,
maps the minimum `i8` score `-128` to itself (the wrapping negation), and
is an involution on every `i8` score and on the infinities. -/
theorem C7_value_order_and_opposite :
    (∀ u : Value, u ≤ u) ∧
    (∀ u v : Value, u ≤ v → v ≤ u → u = v) ∧
    (∀ u v w : Value, u ≤ v → v ≤ w → u ≤ w) ∧
    (∀ u v : Value, u ≤ v ∨ v ≤ u) ∧
    (∀ s : Int, Value.NegativeInfinity < Value.Actual s ∧
      Value.Actual s < Value.PositiveInfinity) ∧
    (∀ x y : Int, Value.Actual x < Value.Actual y ↔ x < y) ∧
    Value.opposite Value.NegativeInfinity = Value.PositiveInfinity ∧
    Value.opposite Value.PositiveInfinity = Value.NegativeInfinity ∧
    (∀ s : Int, -127 ≤ s → s ≤ 127 →
      Value.opposite (Value.Actual s) = Value.Actual (-s)) ∧
    Value.opposite (Value.Actual (-128)) = Value.Actual (-128) ∧
    (∀ s : Int, -128 ≤ s → s ≤ 127 →
      (Value.Actual s).opposite.opposite = Value.Actual s) ∧
    Value.NegativeInfinity.opposite.opposite = Value.NegativeInfinity ∧
    Value.PositiveInfinity.opposite.opposite = Value.PositiveInfinity := by
  refine ⟨fun u => le_refl u, fun _ _ => le_antisymm, fun _ _ _ => le_trans,
    fun u v => le_total u v,
    fun s => ⟨neg_lt_actual s, actual_lt_pos s⟩,
    fun _ _ => Value.actual_lt_actual_iff,
    rfl, rfl,
    fun _ h1 h2 => opposite_exact h1 h2,
    by decide, ?_, rfl, rfl⟩
  intro s h1 h2
  rcases eq_or_lt_of_le h1 with he | hl
  · rw [← he]
    decide
  · exact opposite_opposite_rep ⟨by omega, h2⟩

/-- Witness for C7: the amended opposite facts at concrete scores:
exact negation at 5, the wrap fixed point and involution at -128. -/
theorem C7_value_order_and_opposite_witness :
    Value.opposite (Value.Actual 5) = Value.Actual (-5) ∧
    Value.opposite (Value.Actual (-128)) = Value.Actual (-128) ∧
    (Value.Actual (-128)).opposite.opposite = Value.Actual (-128) :=
  ⟨C7_value_order_and_opposite.2.2.2.2.2.2.2.2.1 5 (by decide) (by decide),
    C7_value_order_and_opposite.2.2.2.2.2.2.2.2.2.1,
    C7_value_order_and_opposite.2.2.2.2.2.2.2.2.2.2.1 (-128) (by decide) (by decide)⟩

/-- Claim C8: `finished` holds exactly when `options` is empty; `options`
lists exactly the indices below `size` with stones, in ascending order. -/
theorem C8_finished_iff_no_options :
    ∀ p : Position,
      (p.finished = true ↔ p.options = []) ∧
      (∀ i : Nat, i ∈ p.options ↔ i < p.size ∧ 0 < p.bowls.getD i 0) ∧
      p.options.Sorted (· < ·) := by
  intro p
  refine ⟨(options_nil_iff p).symm, mem_options p, ?_⟩
  rw [options_eq_optFilter]
  exact (sorted_optFilter (p.bowls.take p.size) 0).1

/-- Claim C9: whenever the remainder phase reaches or passes the mover's
store (`sown_bowl + remainder >= size`), no capture occurs: the capture
flag is off, nothing is captured, and no opposite bowl is zeroed. -/
theorem C9_no_capture_past_store (p : Position) (bowl : Nat)
    (hs : 0 < p.stonesAt bowl) (hfinal : p.size ≤ p.finalIndex bowl) :
    p.capturing bowl = false ∧ p.capturedAmt bowl = 0 ∧
      p.sowBowls3 bowl = p.sowBowls2 bowl := by
  have hcap : p.capturing bowl = false := by
    rw [Position.capturing]
    simp only [Bool.and_eq_false_iff, decide_eq_false_iff_not]
    exact Or.inl (by omega)
  exact ⟨hcap, by rw [Position.capturedAmt, hcap]; simp, by rw [Position.sowBowls3, hcap]; simp⟩

/-- Witness for C9 at `[0,3,0,0]`, bowl 1: the last stone wraps to the far
side after passing the store and nothing is captured. -/
theorem C9_no_capture_past_store_witness :
    (Position.ofList [0, 3, 0, 0]).capturing 1 = false ∧
      (Position.ofList [0, 3, 0, 0]).capturedAmt 1 = 0 ∧
      (Position.ofList [0, 3, 0, 0]).sowBowls3 1 = (Position.ofList [0, 3, 0, 0]).sowBowls2 1 :=
  C9_no_capture_past_store (Position.ofList [0, 3, 0, 0]) 1 (by decide) (by decide)

/-- Claim C10: `Game::play` is atomic: on an empty bowl it returns
`NoStonesInBowl` and leaves position and history untouched; on success the
history gains exactly the one `(player, bowl)` entry. -/
theorem C10_game_play_atomic (g : Game) (bowl : Nat)
    (hwf : g.current.bowls.length = 2 * g.current.size) (hb : bowl < g.current.size) :
    (g.current.bowls.getD bowl 0 = 0 →
      g.play bowl = (Except.error FoulPlay.NoStonesInBowl, g)) ∧
    (∀ q : Position, g.current.play bowl = some q →
      g.play bowl = (Except.ok (),
        { current := q, history := g.history ++ [(g.current.player, bowl)] })) := by
  constructor
  · intro h0
    rw [Game.play]
    have : g.current.play bowl = none := by
      rw [Position.play, Position.stonesAt, h0]
      simp
    rw [this]
  · intro q hq
    rw [Game.play, hq]

/-- Witness for C10: playing the empty bowl 0 leaves the game unchanged,
playing bowl 1 appends one history entry. -/
theorem C10_game_play_atomic_witness :
    (({ current := Position.ofList [0, 2, 1, 0], history := [] } : Game).play 0 =
      (Except.error FoulPlay.NoStonesInBowl,
        { current := Position.ofList [0, 2, 1, 0], history := [] })) ∧
    (({ current := Position.ofList [0, 2, 1, 0], history := [] } : Game).play 1 =
      (Except.ok (),
        { current := (Position.ofList [0, 2, 1, 0]).sow 1,
          history := [] ++ [(Player.Red, 1)] })) :=
  ⟨(C10_game_play_atomic { current := Position.ofList [0, 2, 1, 0], history := [] } 0
      (by decide) (by decide)).1 (by decide),
    (C10_game_play_atomic { current := Position.ofList [0, 2, 1, 0], history := [] } 1
      (by decide) (by decide)).2 ((Position.ofList [0, 2, 1, 0]).sow 1) (by decide)⟩

/-! ### Stone-count bookkeeping through `sow` -/

theorem w8_eq_of_le {n : Nat} (h : n ≤ 255) : w8 n = n := Nat.mod_eq_of_lt (by omega)

theorem getD_le_sum (l : List Nat) (i : Nat) : l.getD i 0 ≤ l.sum := by
  induction l generalizing i with
  | nil => simp
  | cons a l ih =>
    cases i with
    | zero => simp
    | succ i =>
      rw [List.getD_cons_succ, List.sum_cons]
      exact le_trans (ih i) (by omega)

theorem sum_set (l : List Nat) (i v : Nat) (h : i < l.length) :
    (l.set i v).sum + l.getD i 0 = l.sum + v := by
  induction l generalizing i with
  | nil => simp at h
  | cons a l ih =>
    cases i with
    | zero => simp [List.set]; omega
    | succ i =>
      rw [List.set_cons_succ, List.sum_cons, List.sum_cons, List.getD_cons_succ]
      have := ih i (by simpa using h)
      omega

theorem sum_map_w8_add (l : List Nat) (g : Nat) (hb : ∀ s ∈ l, s + g ≤ 255) :
    (l.map (fun s => w8 (s + g))).sum = l.sum + g * l.length := by
  induction l with
  | nil => simp
  | cons a l ih =>
    rw [List.map_cons, List.sum_cons, List.sum_cons, List.length_cons,
      w8_eq_of_le (hb a (by simp)), ih (fun s hs => hb s (by simp [hs])), Nat.mul_succ]
    omega

theorem bump_fold (js : List Nat) (l : List Nat)
    (hj : ∀ j ∈ js, j < l.length) (hsum : l.sum + js.length ≤ 255) :
    (js.foldl Position.bump l).sum = l.sum + js.length ∧
      (js.foldl Position.bump l).length = l.length := by
  induction js generalizing l with
  | nil => simp
  | cons j js ih =>
    rw [List.foldl_cons]
    have hjl : j < l.length := hj j (by simp)
    have hd : l.getD j 0 + 1 ≤ 255 := by
      have := getD_le_sum l j
      simp at hsum
      omega
    have hstep : (Position.bump l j).sum = l.sum + 1 := by
      have := sum_set l j (w8 (l.getD j 0 + 1)) hjl
      rw [w8_eq_of_le hd] at this
      rw [Position.bump, w8_eq_of_le hd]
      omega
    have hlen : (Position.bump l j).length = l.length := by
      rw [Position.bump, List.length_set]
    have := ih (Position.bump l j)
      (fun i hi => by rw [hlen]; exact hj i (by simp [hi]))
      (by rw [hstep]; simp at hsum ⊢; omega)
    rw [this.1, this.2, hstep, hlen]
    simp
    omega

theorem sum_rotL (n : Nat) (l : List Nat) : (Position.rotL n l).sum = l.sum := by
  rw [Position.rotL, List.sum_append, Nat.add_comm, List.sum_take_add_sum_drop]

/-- All exact stone-count facts about one `sow` call on a well-formed board
(`bowls.length = 2*size`), a mover-side bowl, and a total that fits in a
`u8` (so none of the `u8` operations of the source can wrap). -/
theorem sow_sum_facts (p : Position) (bowl : Nat)
    (hwf : p.bowls.length = 2 * p.size) (hb : bowl < p.size)
    (hT : p.stoneTotal ≤ 255) :
    (p.sowBowls1 bowl).sum + p.stonesAt bowl = p.bowls.sum + p.allGain bowl * (2 * p.size) ∧
    (p.sowBowls2 bowl).sum = (p.sowBowls1 bowl).sum + p.sowUpper bowl ∧
    (p.sowBowls3 bowl).sum + p.capturedAmt bowl = (p.sowBowls2 bowl).sum ∧
    (p.sowBowls3 bowl).length = 2 * p.size ∧
    p.sowCapPair bowl = (p.capture.1 + p.captureGain bowl, p.capture.2) ∧
    p.sowUpper bowl + p.captureGain bowl =
      p.allGain bowl + p.capturedAmt bowl + p.extra bowl ∧
    p.allGain bowl * (2 * p.size) + p.allGain bowl + p.extra bowl = p.stonesAt bowl ∧
    p.stonesAt bowl ≤ p.bowls.sum := by
  have hsize : 0 < p.size := by omega
  have hS : p.bowls.sum ≤ 255 := by
    rw [Position.stoneTotal] at hT
    omega
  have hstones : p.stonesAt bowl ≤ p.bowls.sum := getD_le_sum p.bowls bowl
  have hgle : p.allGain bowl ≤ p.stonesAt bowl := Nat.div_le_self _ _
  have hdm : p.allGain bowl * (2 * p.size) + p.allGain bowl + p.extra bowl =
      p.stonesAt bowl := by
    have h1 := Nat.div_add_mod (p.stonesAt bowl) (2 * p.size + 1)
    have h2 : (2 * p.size + 1) * (p.stonesAt bowl / (2 * p.size + 1)) =
        p.stonesAt bowl / (2 * p.size + 1) * (2 * p.size) +
          p.stonesAt bowl / (2 * p.size + 1) := by
      ring
    rw [Position.allGain, Position.extra, Position.tour]
    omega
  have hbl : bowl < p.bowls.length := by omega
  have hset : (p.bowls.set bowl 0).sum + p.stonesAt bowl = p.bowls.sum := by
    have := sum_set p.bowls bowl 0 hbl
    rw [Position.stonesAt]
    omega
  have hset_len : (p.bowls.set bowl 0).length = 2 * p.size := by
    rw [List.length_set, hwf]
  have hmem : ∀ s ∈ p.bowls.set bowl 0, s + p.allGain bowl ≤ 255 := by
    intro s hs
    have h1 : s ≤ (p.bowls.set bowl 0).sum :=
      List.single_le_sum (fun x _ => Nat.zero_le x) s hs
    omega
  have f1 : (p.sowBowls1 bowl).sum + p.stonesAt bowl =
      p.bowls.sum + p.allGain bowl * (2 * p.size) := by
    rw [Position.sowBowls1, sum_map_w8_add _ _ hmem, hset_len]
    omega
  have hextra_le : p.extra bowl ≤ p.stonesAt bowl := Nat.mod_le _ _
  have hupper_bonus : p.sowUpper bowl + (if p.size ≤ p.finalIndex bowl then 1 else 0) =
      p.extra bowl := by
    rw [Position.sowUpper]
    split_ifs with h
    · have : 1 ≤ p.extra bowl := by
        rw [Position.finalIndex] at h
        omega
      omega
    · omega
  have hupper_le : p.sowUpper bowl ≤ p.extra bowl := by omega
  have h1len : (p.sowBowls1 bowl).length = 2 * p.size := by
    rw [Position.sowBowls1, List.length_map, hset_len]
  have hidx : ∀ j ∈ p.sowIdxs bowl, j < (p.sowBowls1 bowl).length := by
    intro j hj
    rw [Position.sowIdxs, List.mem_map] at hj
    obtain ⟨i, -, rfl⟩ := hj
    rw [h1len]
    exact Nat.mod_lt _ (by omega)
  have hidxlen : (p.sowIdxs bowl).length = p.sowUpper bowl := by
    rw [Position.sowIdxs, List.length_map, List.length_range]
  have h1sum_le : (p.sowBowls1 bowl).sum + (p.sowIdxs bowl).length ≤ 255 := by
    rw [hidxlen]
    omega
  have f2 : (p.sowBowls2 bowl).sum = (p.sowBowls1 bowl).sum + p.sowUpper bowl := by
    rw [Position.sowBowls2, (bump_fold _ _ hidx h1sum_le).1, hidxlen]
  have h2len : (p.sowBowls2 bowl).length = 2 * p.size := by
    rw [Position.sowBowls2, (bump_fold _ _ hidx h1sum_le).2, h1len]
  have f3 : (p.sowBowls3 bowl).sum + p.capturedAmt bowl = (p.sowBowls2 bowl).sum := by
    rw [Position.sowBowls3, Position.capturedAmt]
    split_ifs with h
    · have hop : p.oppositeIdx bowl < (p.sowBowls2 bowl).length := by
        rw [h2len, Position.oppositeIdx]
        omega
      have := sum_set (p.sowBowls2 bowl) (p.oppositeIdx bowl) 0 hop
      omega
    · omega
  have f4 : (p.sowBowls3 bowl).length = 2 * p.size := by
    rw [Position.sowBowls3]
    split_ifs
    · rw [List.length_set, h2len]
    · exact h2len
  have hcap_le : p.capturedAmt bowl ≤ (p.sowBowls2 bowl).sum := by
    rw [Position.capturedAmt]
    split_ifs
    · exact getD_le_sum _ _
    · omega
  have f6 : p.sowUpper bowl + p.captureGain bowl =
      p.allGain bowl + p.capturedAmt bowl + p.extra bowl := by
    rw [Position.captureGain]
    omega
  have hgain_le : p.capture.1 + p.captureGain bowl ≤ 255 := by
    rw [Position.stoneTotal] at hT
    omega
  have f5 : p.sowCapPair bowl = (p.capture.1 + p.captureGain bowl, p.capture.2) := by
    rw [Position.sowCapPair, w8_eq_of_le (by omega : p.captureGain bowl ≤ 255),
      w8_eq_of_le hgain_le]
  exact ⟨f1, f2, f3, f4, f5, f6, hdm, hstones⟩

/-! ### Claims C2 and C3: counterexamples -/

/-- Counterexample to claim C2 as stated: on the board `[255, 255]` the
played `u8` counts overflow (`(*s as usize + all_gain) as Stones`
truncates), so the total stone count drops from 510 to 254. -/
theorem C2_conservation_counterexample :
    ¬ ∀ (p : Position) (bowl : Nat) (q : Position),
        p.play bowl = some q → q.stoneTotal = p.stoneTotal := by
  intro h
  have := h (Position.ofList [255, 255]) 0 ((Position.ofList [255, 255]).sow 0) (by decide)
  exact absurd this (by decide)

/-- Counterexample to claim C3 as stated: playing bowl 1 of `[0, 3, 0, 0]`
passes the store (`landing_index = 4 > size = 2`), so the store gains the
pass-through stone even though `landing_index ≠ size`; the claim's formula
predicts a gain of 0, the code yields 1. -/
theorem C3_store_gain_counterexample :
    ¬ ∀ (p : Position) (bowl : Nat) (q : Position),
        p.play bowl = some q →
          (if p.changePlayer bowl then q.capture.2 else q.capture.1) =
            p.capture.1 + p.allGain bowl + p.capturedAmt bowl +
              (if p.finalIndex bowl = p.size then 1 else 0) := by
  intro h
  have := h (Position.ofList [0, 3, 0, 0]) 1 ((Position.ofList [0, 3, 0, 0]).sow 1) (by decide)
  exact absurd this (by decide)

/-- Stone conservation for one `sow` on a well-formed board with a
`u8`-sized total. -/
theorem sow_stoneTotal (p : Position) (bowl : Nat)
    (hwf : p.bowls.length = 2 * p.size) (hb : bowl < p.size)
    (hT : p.stoneTotal ≤ 255) :
    (p.sow bowl).stoneTotal = p.stoneTotal := by
  obtain ⟨f1, f2, f3, -, f5, f6, f7, f8⟩ := sow_sum_facts p bowl hwf hb hT
  rw [Position.sow]
  split_ifs with hch
  · show (Position.rotL p.size (p.sowBowls3 bowl)).sum + (p.sowCapPair bowl).2 +
        (p.sowCapPair bowl).1 = p.stoneTotal
    rw [sum_rotL, f5, Position.stoneTotal]
    omega
  · show (p.sowBowls3 bowl).sum + (p.sowCapPair bowl).1 + (p.sowCapPair bowl).2 = p.stoneTotal
    rw [f5, Position.stoneTotal]
    omega

/-- `sow` keeps the half-board width. -/
theorem sow_size (p : Position) (bowl : Nat) : (p.sow bowl).size = p.size := by
  rw [Position.sow]
  split_ifs <;> rfl

/-- `sow` keeps the board well-formed. -/
theorem sow_length (p : Position) (bowl : Nat)
    (hwf : p.bowls.length = 2 * p.size) (hb : bowl < p.size)
    (hT : p.stoneTotal ≤ 255) :
    (p.sow bowl).bowls.length = 2 * (p.sow bowl).size := by
  obtain ⟨-, -, -, f4, -, -, -, -⟩ := sow_sum_facts p bowl hwf hb hT
  rw [sow_size, Position.sow]
  split_ifs
  · show (Position.rotL p.size (p.sowBowls3 bowl)).length = 2 * p.size
    rw [Position.rotL, List.length_append, List.length_drop, List.length_take, f4]
    omega
  · exact f4

/-- Playing any legal bowl preserves well-formedness and the small total
stone count. -/
theorem sow_wfSmall (p : Position) (bowl : Nat) (h : p.wfSmall)
    (hb : bowl ∈ p.options) : (p.sow bowl).wfSmall := by
  obtain ⟨hwf, hT⟩ := h
  obtain ⟨hbs, -⟩ := (mem_options p bowl).mp hb
  refine ⟨sow_length p bowl hwf hbs (by omega), ?_⟩
  rw [sow_stoneTotal p bowl hwf hbs (by omega)]
  exact hT

/-- On a small well-formed board the score formula never wraps and stays
strictly inside the `i8` range. -/
theorem scoreOf_range (p : Position) (h : p.wfSmall) :
    -127 ≤ p.scoreOf ∧ p.scoreOf ≤ 127 := by
  obtain ⟨hwf, hT⟩ := h
  have hsum := List.sum_take_add_sum_drop p.bowls p.size
  have hsum2 := List.sum_take_add_sum_drop (p.bowls.drop p.size) p.size
  rw [Position.stoneTotal] at hT
  have h1 : (p.bowls.take p.size).sum + p.capture.1 ≤ 127 := by omega
  have h2 : ((p.bowls.drop p.size).take p.size).sum + p.capture.2 ≤ 127 := by omega
  rw [Position.scoreOf, w8_eq_of_le (by omega), w8_eq_of_le (by omega),
    toI8_small h1, toI8_small h2, wrapI8_small (by omega) (by omega)]
  omega

/-- Claim C2 as amended: stone conservation holds for every play of a
mover-side bowl of a well-formed board whose total stone count fits in a
`u8`, so that no `u8` operation of `sow` can wrap. -/
theorem C2_conservation_amended (p : Position) (bowl : Nat) (q : Position)
    (hwf : p.bowls.length = 2 * p.size) (hb : bowl < p.size)
    (hT : p.stoneTotal ≤ 255) (hq : p.play bowl = some q) :
    q.stoneTotal = p.stoneTotal := by
  obtain ⟨-, rfl⟩ := (play_eq_some_iff p bowl q).mp hq
  exact sow_stoneTotal p bowl hwf hb hT

/-- Witness for the amended C2 at `[2, 2, 2, 2]`, bowl 1: 8 stones before
and after. -/
theorem C2_conservation_amended_witness :
    ((Position.ofList [2, 2, 2, 2]).sow 1).stoneTotal = (Position.ofList [2, 2, 2, 2]).stoneTotal :=
  C2_conservation_amended (Position.ofList [2, 2, 2, 2]) 1 _ (by decide) (by decide)
    (by decide) rfl

/-- Claim C3 as amended: under the same no-overflow conditions, the
mover's store (pre-swap `capture[0]`) gains exactly
`full_laps + captured_amount + (1 if landing_index ≥ size else 0)` —
the bonus stone is credited whenever the remainder reaches or passes the
store, not only on an exact landing. -/
theorem C3_store_gain_amended (p : Position) (bowl : Nat) (q : Position)
    (hwf : p.bowls.length = 2 * p.size) (hb : bowl < p.size)
    (hT : p.stoneTotal ≤ 255) (hq : p.play bowl = some q) :
    (if p.changePlayer bowl then q.capture.2 else q.capture.1) =
      p.capture.1 + p.allGain bowl + p.capturedAmt bowl +
        (if p.size ≤ p.finalIndex bowl then 1 else 0) := by
  obtain ⟨-, rfl⟩ := (play_eq_some_iff p bowl q).mp hq
  obtain ⟨-, -, -, -, f5, -, -, -⟩ := sow_sum_facts p bowl hwf hb hT
  rcases hch : p.changePlayer bowl with - | -
  · rw [if_neg (by simp [hch]), Position.sow, if_neg (by simp [hch])]
    show (p.sowCapPair bowl).1 = _
    rw [f5, Position.captureGain]
    omega
  · rw [if_pos (by simp [hch]), Position.sow, if_pos (by simp [hch])]
    show (p.sowCapPair bowl).1 = _
    rw [f5, Position.captureGain]
    omega

/-- Witness for the amended C3 at `[2, 2, 2, 2]`, bowl 1: the remainder
passes the store, which gains exactly the one pass-through stone. -/
theorem C3_store_gain_amended_witness :
    (if (Position.ofList [2, 2, 2, 2]).changePlayer 1 then
        ((Position.ofList [2, 2, 2, 2]).sow 1).capture.2
      else ((Position.ofList [2, 2, 2, 2]).sow 1).capture.1) =
      (Position.ofList [2, 2, 2, 2]).capture.1 + (Position.ofList [2, 2, 2, 2]).allGain 1 +
        (Position.ofList [2, 2, 2, 2]).capturedAmt 1 +
        (if (Position.ofList [2, 2, 2, 2]).size ≤ (Position.ofList [2, 2, 2, 2]).finalIndex 1
          then 1 else 0) :=
  C3_store_gain_amended (Position.ofList [2, 2, 2, 2]) 1 _ (by decide) (by decide)
    (by decide) rfl

/-! ### Claim C1: AlphaBeta with the delta heuristic and unbounded depth
refines MinMax -/

/-- Flipping a fail-soft result across a turn change: on scores strictly
inside the `i8` range, where the wrapping negation is an exact order
anti-isomorphism, a result for the child window
`(beta.opposite, alpha.opposite)` negates into a result for
`(alpha, beta)`. -/
theorem FS_flip {alpha beta t r : Value} (hA : alpha.Rep) (hB : beta.Rep)
    (hT : t.Rep) (hR : r.Rep) (h : FS beta.opposite alpha.opposite t r) :
    FS alpha beta t.opposite r.opposite := by
  obtain ⟨he, hl, hh⟩ := h
  refine ⟨fun h1 h2 => ?_, fun h1 => ?_, fun h1 => ?_⟩
  · have hb : beta.opposite < t := (opposite_lt_opposite_rep hT (Rep_opposite hB)).mp
      (by rw [opposite_opposite_rep hB]; exact h2)
    have ha : t < alpha.opposite := (opposite_lt_opposite_rep (Rep_opposite hA) hT).mp
      (by rw [opposite_opposite_rep hA]; exact h1)
    rw [he hb ha]
  · have h1' : alpha.opposite ≤ t := by
      have := (opposite_le_opposite_rep hA (Rep_opposite hT)).mpr h1
      rwa [opposite_opposite_rep hT] at this
    obtain ⟨ha, hb⟩ := hh h1'
    refine ⟨(opposite_le_opposite_rep hT hR).mpr hb, ?_⟩
    have := (opposite_le_opposite_rep hR (Rep_opposite hA)).mpr ha
    rwa [opposite_opposite_rep hA] at this
  · have h1' : t ≤ beta.opposite := by
      have := (opposite_le_opposite_rep (Rep_opposite hT) hB).mpr h1
      rwa [opposite_opposite_rep hT] at this
    obtain ⟨ha, hb⟩ := hl h1'
    refine ⟨?_, (opposite_le_opposite_rep hR hT).mpr ha⟩
    have := (opposite_le_opposite_rep (Rep_opposite hB) hR).mpr hb
    rwa [opposite_opposite_rep hB] at this

/-- The minmax loop only improves the running best and only grows the node
count. -/
theorem mmLoop_le (rec : Position → Option SearchResult) (p : Position) :
    ∀ (l : List Nat) (bb : Option Nat) (bv : Value) (cnt : Nat)
      (B : Option Nat) (V : Value) (C : Nat),
      mmLoop rec p l bb bv cnt = some (B, V, C) → bv ≤ V ∧ cnt ≤ C := by
  intro l
  induction l with
  | nil =>
    intro bb bv cnt B V C h
    simp only [mmLoop, Option.some_inj, Prod.mk.injEq] at h
    exact ⟨le_of_eq h.2.1, le_of_eq h.2.2⟩
  | cons bowl rest ih =>
    intro bb bv cnt B V C h
    simp only [mmLoop] at h
    cases hrec : rec (p.sow bowl) with
    | none => rw [hrec] at h; exact absurd h (by simp)
    | some t =>
      rw [hrec] at h
      simp only at h
      by_cases ht : (p.sow bowl).turn = p.turn
      · rw [if_pos ht] at h
        split_ifs at h with hlt
        · have := ih _ _ _ _ _ _ h
          exact ⟨le_trans (le_of_lt hlt) this.1, le_trans (by omega) this.2⟩
        · have := ih _ _ _ _ _ _ h
          exact ⟨this.1, le_trans (by omega) this.2⟩
      · rw [if_neg ht] at h
        split_ifs at h with hlt
        · have := ih _ _ _ _ _ _ h
          exact ⟨le_trans (le_of_lt hlt) this.1, le_trans (by omega) this.2⟩
        · have := ih _ _ _ _ _ _ h
          exact ⟨this.1, le_trans (by omega) this.2⟩

/-- On a small well-formed board every defined minmax value is a finite
score strictly inside the `i8` range: no negation in the search can
wrap. -/
theorem mm_value_rep :
    ∀ (fuel : Nat) (p : Position), p.wfSmall →
      ∀ (b : Option Nat) (v : Value) (c : Nat), minmaxF fuel p = some (b, v, c) →
      ∃ s, v = Value.Actual s ∧ -127 ≤ s ∧ s ≤ 127 := by
  intro fuel
  induction fuel with
  | zero => intro p hp b v c h; exact absurd h (by simp [minmaxF])
  | succ fuel ih =>
    have loop : ∀ (p : Position) (l : List Nat), (∀ i ∈ l, (p.sow i).wfSmall) →
        ∀ (bb : Option Nat) (bv : Value) (cnt : Nat)
          (B : Option Nat) (V : Value) (C : Nat),
        mmLoop (minmaxF fuel) p l bb bv cnt = some (B, V, C) →
        (bv = Value.NegativeInfinity → l ≠ []) →
        (bv = Value.NegativeInfinity ∨ ∃ s, bv = Value.Actual s ∧ -127 ≤ s ∧ s ≤ 127) →
        ∃ s, V = Value.Actual s ∧ -127 ≤ s ∧ s ≤ 127 := by
      intro p l
      induction l with
      | nil =>
        intro hl bb bv cnt B V C h hne hcase
        simp only [mmLoop, Option.some_inj, Prod.mk.injEq] at h
        rcases hcase with h0 | ⟨s, rfl, hs1, hs2⟩
        · exact absurd rfl (hne h0)
        · exact ⟨s, h.2.1.symm, hs1, hs2⟩
      | cons bowl rest ihl =>
        intro hl bb bv cnt B V C h hne hcase
        simp only [mmLoop] at h
        cases hrec : minmaxF fuel (p.sow bowl) with
        | none => rw [hrec] at h; exact absurd h (by simp)
        | some t =>
          rw [hrec] at h
          simp only at h
          obtain ⟨s0, hs0, hsl, hsr⟩ :=
            ih (p.sow bowl) (hl bowl (by simp)) t.1 t.2.1 t.2.2 (by rw [hrec])
          have hact : ∃ s, (if (p.sow bowl).turn = p.turn then t.2.1 else t.2.1.opposite) =
              Value.Actual s ∧ -127 ≤ s ∧ s ≤ 127 := by
            split_ifs
            · exact ⟨s0, hs0, hsl, hsr⟩
            · exact ⟨-s0, by rw [hs0, opposite_exact hsl hsr], by omega, by omega⟩
          obtain ⟨s1, hs1, hb1, hb2⟩ := hact
          rw [hs1] at h
          split_ifs at h with hlt
          · exact ihl (fun i hi => hl i (by simp [hi])) _ _ _ _ _ _ h (by simp)
              (Or.inr ⟨s1, rfl, hb1, hb2⟩)
          · refine ihl (fun i hi => hl i (by simp [hi])) _ _ _ _ _ _ h ?_ hcase
            intro h0
            rw [h0] at hlt
            exact absurd (neg_lt_actual s1) hlt
    intro p hp b v c h
    simp only [minmaxF] at h
    split_ifs at h with hfin
    · simp only [Option.some_inj, Prod.mk.injEq] at h
      obtain ⟨hs1, hs2⟩ := scoreOf_range p hp
      exact ⟨p.scoreOf, h.2.1.symm, hs1, hs2⟩
    · refine loop p p.options (fun i hi => sow_wfSmall p i hp hi) none Value.NegativeInfinity 1
        b v c h (fun _ hnil => hfin ((options_nil_iff p).mp hnil)) (Or.inl rfl)

/-- Shorthand for the induction hypothesis of the main refinement proof:
at the given fuel, every defined minmax result is matched fail-soft by
`alpha_beta` on any open window. -/
def ABIH (fuel : Nat) : Prop :=
  ∀ (q : Position), q.wfSmall →
    ∀ (alpha beta : Value), alpha.Rep → beta.Rep → alpha < beta →
    ∀ (b : Option Nat) (v : Value) (c : Nat), minmaxF fuel q = some (b, v, c) →
    ∃ b' v' c', alphaBetaF deltaH fuel q alpha beta Depth.Infinite = some (b', v', c') ∧
      c' ≤ c ∧ FS alpha beta v v' ∧ v'.Rep

/-- One child step of the alpha-beta loop: the scrutinee of `abLoop`
evaluates to a fail-soft result for the child's minmax value, negated
across a turn change. -/
theorem ab_child {fuel : Nat} (hIH : ABIH fuel) (p : Position) (bowl : Nat)
    (hq : (p.sow bowl).wfSmall)
    (alpha beta : Value) (hA : alpha.Rep) (hB : beta.Rep) (hab : alpha < beta)
    (bq : Option Nat) (tq : Value) (cq : Nat)
    (hmm : minmaxF fuel (p.sow bowl) = some (bq, tq, cq)) :
    ∃ (b' : Option Nat) (r : Value) (c' : Nat),
      (if (p.sow bowl).turn = p.turn then
          alphaBetaF deltaH fuel (p.sow bowl) alpha beta Depth.Infinite.decrement
        else (alphaBetaF deltaH fuel (p.sow bowl) beta.opposite alpha.opposite
            Depth.Infinite.decrement).map (fun t => (t.1, t.2.1.opposite, t.2.2))) =
        some (b', r, c') ∧
      c' ≤ cq ∧
      FS alpha beta (if (p.sow bowl).turn = p.turn then tq else tq.opposite) r ∧
      r.Rep := by
  by_cases ht : (p.sow bowl).turn = p.turn
  · obtain ⟨b', v', c', heq, hc, hFS, hRep⟩ :=
      hIH (p.sow bowl) hq alpha beta hA hB hab bq tq cq hmm
    exact ⟨b', v', c', by rw [if_pos ht]; exact heq, hc,
      by rw [if_pos ht]; exact hFS, hRep⟩
  · have hab' : beta.opposite < alpha.opposite := (opposite_lt_opposite_rep hB hA).mpr hab
    obtain ⟨b', v', c', heq, hc, hFS, hRep⟩ :=
      hIH (p.sow bowl) hq beta.opposite alpha.opposite
        (Rep_opposite hB) (Rep_opposite hA) hab' bq tq cq hmm
    have hTq : tq.Rep := by
      obtain ⟨s, rfl, h1, h2⟩ := mm_value_rep fuel (p.sow bowl) hq bq tq cq hmm
      exact ⟨h1, h2⟩
    refine ⟨b', v'.opposite, c', ?_, hc,
      by rw [if_neg ht]; exact FS_flip hA hB hTq hRep hFS, Rep_opposite hRep⟩
    rw [if_neg ht]
    show (alphaBetaF deltaH fuel (p.sow bowl) beta.opposite alpha.opposite
      Depth.Infinite).map (fun t => (t.1, t.2.1.opposite, t.2.2)) = _
    rw [heq]
    rfl

/-- Alpha-beta loop synchronised with the minmax loop when the window's
lower bound equals the running best (`alpha = bv`, identical best
bowl/value, running count no larger): below `beta` the loops agree
exactly, at or above `beta` the loop cuts off with a value in
`[beta, V]`. -/
theorem ab_mm_loop_sync (fuel : Nat) (hIH : ABIH fuel) (p : Position) (beta : Value)
    (hB : beta.Rep) :
    ∀ (l : List Nat) (bb : Option Nat) (bv : Value) (cnt cnt' : Nat)
      (B : Option Nat) (V : Value) (C : Nat),
      mmLoop (minmaxF fuel) p l bb bv cnt = some (B, V, C) →
      (∀ i ∈ l, (p.sow i).wfSmall) → bv.Rep →
      bv < beta → cnt' ≤ cnt →
      ∃ B' V' C',
        abLoop (alphaBetaF deltaH fuel) p beta Depth.Infinite l bv bb bv cnt' =
          some (B', V', C') ∧
        C' ≤ C ∧ (V < beta → B' = B ∧ V' = V) ∧ (beta ≤ V → beta ≤ V' ∧ V' ≤ V) ∧
        V'.Rep := by
  intro l
  induction l with
  | nil =>
    intro bb bv cnt cnt' B V C h hl hbvR hb hc
    simp only [mmLoop, Option.some_inj, Prod.mk.injEq] at h
    obtain ⟨h1, h2, h3⟩ := h
    refine ⟨bb, bv, cnt', by simp [abLoop], by omega, fun _ => ⟨h1, h2⟩, fun hv => ?_, hbvR⟩
    rw [← h2] at hv
    exact absurd hb (not_lt_of_le hv)
  | cons bowl rest ihl =>
    intro bb bv cnt cnt' B V C h hl hbvR hb hc
    simp only [mmLoop] at h
    cases hrec : minmaxF fuel (p.sow bowl) with
    | none => rw [hrec] at h; exact absurd h (by simp)
    | some t =>
      rw [hrec] at h
      simp only at h
      obtain ⟨bj, r, cj, heq, hcle, hFS, hRr⟩ :=
        ab_child hIH p bowl (hl bowl (by simp)) bv beta hbvR hB hb t.1 t.2.1 t.2.2
          (by rw [hrec])
      have hvRep : (if (p.sow bowl).turn = p.turn then t.2.1 else t.2.1.opposite).Rep := by
        obtain ⟨s, hs, h1, h2⟩ := mm_value_rep fuel (p.sow bowl) (hl bowl (by simp))
          t.1 t.2.1 t.2.2 (by rw [hrec])
        split_ifs
        · rw [hs]
          exact ⟨h1, h2⟩
        · rw [hs]
          exact Rep_opposite ⟨h1, h2⟩
      set v := if (p.sow bowl).turn = p.turn then t.2.1 else t.2.1.opposite with hv
      have hltl : ∀ i ∈ rest, (p.sow i).wfSmall := fun i hi => hl i (by simp [hi])
      rcases lt_trichotomy bv v with hbv | hbv | hbv
      · -- the child strictly improves on the running best
        rcases lt_or_le v beta with hvb | hvb
        · -- exact child: both loops update and stay synchronised
          have hr : r = v := hFS.1 hbv hvb
          rw [if_pos hbv] at h
          obtain ⟨B', V', C', habl, hC, hlow, hhigh, hRV⟩ :=
            ihl (some bowl) v (cnt + t.2.2) (cnt' + cj) B V C h hltl hvRep hvb (by omega)
          refine ⟨B', V', C', ?_, hC, hlow, hhigh, hRV⟩
          simp only [abLoop, heq, hr, if_pos hbv]
          rw [Value.maxv_eq_max, max_eq_right (le_of_lt hbv),
            if_neg (not_le_of_lt hvb)]
          exact habl
        · -- fail high: the alpha-beta loop cuts off at this child
          have hrr := hFS.2.2 hvb
          rw [if_pos hbv] at h
          have hle := mmLoop_le _ _ _ _ _ _ _ _ _ h
          refine ⟨some bowl, r, cnt' + cj, ?_, by omega, fun hV => ?_, fun _ => ?_, hRr⟩
          · have hbr : bv < r := lt_of_lt_of_le hb hrr.1
            simp only [abLoop, heq]
            rw [Value.maxv_eq_max, max_eq_right (le_of_lt hbr), if_pos hrr.1,
              if_pos hbr, if_pos hbr]
          · exact absurd (lt_of_le_of_lt (le_trans hvb hle.1) hV) (lt_irrefl beta)
          · exact ⟨hrr.1, le_trans hrr.2 hle.1⟩
      · -- tie: neither loop updates (strict comparison)
        have hrle : v ≤ r ∧ r ≤ bv := hFS.2.1 (le_of_eq hbv.symm)
        rw [if_neg (by rw [hbv]; exact lt_irrefl v)] at h
        obtain ⟨B', V', C', habl, hC, hlow, hhigh, hRV⟩ :=
          ihl bb bv (cnt + t.2.2) (cnt' + cj) B V C h hltl hbvR hb (by omega)
        refine ⟨B', V', C', ?_, hC, hlow, hhigh, hRV⟩
        simp only [abLoop, heq]
        rw [if_neg (not_lt_of_le hrle.2), if_neg (not_lt_of_le hrle.2),
          Value.maxv_eq_max, max_eq_left hrle.2, if_neg (not_le_of_lt hb)]
        exact habl
      · -- the child is no improvement: fail low on window (bv, beta)
        have hrle : v ≤ r ∧ r ≤ bv := hFS.2.1 (le_of_lt hbv)
        rw [if_neg (not_lt_of_le (le_of_lt hbv))] at h
        obtain ⟨B', V', C', habl, hC, hlow, hhigh, hRV⟩ :=
          ihl bb bv (cnt + t.2.2) (cnt' + cj) B V C h hltl hbvR hb (by omega)
        refine ⟨B', V', C', ?_, hC, hlow, hhigh, hRV⟩
        simp only [abLoop, heq]
        rw [if_neg (not_lt_of_le hrle.2), if_neg (not_lt_of_le hrle.2),
          Value.maxv_eq_max, max_eq_left hrle.2, if_neg (not_le_of_lt hb)]
        exact habl

/-- Alpha-beta loop against the minmax loop while the alpha-beta best is
still in the "low" phase (at most `alpha`, and at least the minmax best):
the final value is exact strictly inside the window, an upper bound at or
below `alpha`, a lower bound at or above `beta`, and the node count never
exceeds minmax's. -/
theorem ab_mm_loop_low (fuel : Nat) (hIH : ABIH fuel) (p : Position)
    (alpha beta : Value) (hA : alpha.Rep) (hB : beta.Rep) (hab : alpha < beta) :
    ∀ (l : List Nat) (bb : Option Nat) (bv : Value) (cnt : Nat)
      (bb' : Option Nat) (bv' : Value) (cnt' : Nat)
      (B : Option Nat) (V : Value) (C : Nat),
      mmLoop (minmaxF fuel) p l bb bv cnt = some (B, V, C) →
      (∀ i ∈ l, (p.sow i).wfSmall) → bv'.Rep →
      cnt' ≤ cnt → bv ≤ bv' → bv' ≤ alpha →
      ∃ B' V' C',
        abLoop (alphaBetaF deltaH fuel) p beta Depth.Infinite l alpha bb' bv' cnt' =
          some (B', V', C') ∧
        C' ≤ C ∧
        (alpha < V → V < beta → B' = B ∧ V' = V) ∧
        (V ≤ alpha → V ≤ V' ∧ V' ≤ alpha) ∧
        (beta ≤ V → beta ≤ V' ∧ V' ≤ V) ∧
        V'.Rep := by
  intro l
  induction l with
  | nil =>
    intro bb bv cnt bb' bv' cnt' B V C h hls hRv' hc h1 h2
    simp only [mmLoop, Option.some_inj, Prod.mk.injEq] at h
    obtain ⟨-, hV, hC⟩ := h
    refine ⟨bb', bv', cnt', by simp [abLoop], by omega, fun ha hb => ?_, fun ha => ?_,
      fun hbb => ?_, hRv'⟩
    · rw [← hV] at ha
      exact absurd (lt_of_lt_of_le ha (le_trans h1 h2)) (lt_irrefl alpha)
    · exact ⟨le_trans (le_of_eq hV.symm) h1, h2⟩
    · rw [← hV] at hbb
      exact absurd (lt_of_lt_of_le hab (le_trans hbb (le_trans h1 h2))) (lt_irrefl alpha)
  | cons bowl rest ihl =>
    intro bb bv cnt bb' bv' cnt' B V C h hls hRv' hc h1 h2
    simp only [mmLoop] at h
    cases hrec : minmaxF fuel (p.sow bowl) with
    | none => rw [hrec] at h; exact absurd h (by simp)
    | some t =>
      rw [hrec] at h
      simp only at h
      obtain ⟨bj, r, cj, heq, hcle, hFS, hRr⟩ :=
        ab_child hIH p bowl (hls bowl (by simp)) alpha beta hA hB hab t.1 t.2.1 t.2.2
          (by rw [hrec])
      have hvRep : (if (p.sow bowl).turn = p.turn then t.2.1 else t.2.1.opposite).Rep := by
        obtain ⟨s, hs, hsl, hsr⟩ := mm_value_rep fuel (p.sow bowl) (hls bowl (by simp))
          t.1 t.2.1 t.2.2 (by rw [hrec])
        split_ifs
        · rw [hs]
          exact ⟨hsl, hsr⟩
        · rw [hs]
          exact Rep_opposite ⟨hsl, hsr⟩
      set v := if (p.sow bowl).turn = p.turn then t.2.1 else t.2.1.opposite with hv
      have hltl : ∀ i ∈ rest, (p.sow i).wfSmall := fun i hi => hls i (by simp [hi])
      rcases le_or_lt v alpha with hva | hva
      · -- child at most alpha: fail low, the window lower bound is kept
        have hrle : v ≤ r ∧ r ≤ alpha := hFS.2.1 hva
        have habstep : ∀ (bba : Option Nat) (bva : Value),
            (if bv' < r then some bowl else bb') = bba →
            (if bv' < r then r else bv') = bva →
            abLoop (alphaBetaF deltaH fuel) p beta Depth.Infinite (bowl :: rest)
                alpha bb' bv' cnt' =
              abLoop (alphaBetaF deltaH fuel) p beta Depth.Infinite rest alpha bba bva
                (cnt' + cj) := by
          intro bba bva hba hbv
          simp only [abLoop, heq]
          rw [Value.maxv_eq_max, max_eq_left hrle.2, if_neg (not_le_of_lt hab), hba, hbv]
        split_ifs at h with hmup
        · by_cases habup : bv' < r
          · obtain ⟨B', V', C', habl, hC, he, hl, hh, hR⟩ :=
              ihl (some bowl) v (cnt + t.2.2) (some bowl) r (cnt' + cj) B V C h hltl
                hRr (by omega) hrle.1 hrle.2
            exact ⟨B', V', C',
              by rw [habstep (some bowl) r (if_pos habup) (if_pos habup)]; exact habl,
              hC, he, hl, hh, hR⟩
          · obtain ⟨B', V', C', habl, hC, he, hl, hh, hR⟩ :=
              ihl (some bowl) v (cnt + t.2.2) bb' bv' (cnt' + cj) B V C h hltl
                hRv' (by omega) (le_trans hrle.1 (le_of_not_lt habup)) h2
            exact ⟨B', V', C',
              by rw [habstep bb' bv' (if_neg habup) (if_neg habup)]; exact habl,
              hC, he, hl, hh, hR⟩
        · by_cases habup : bv' < r
          · obtain ⟨B', V', C', habl, hC, he, hl, hh, hR⟩ :=
              ihl bb bv (cnt + t.2.2) (some bowl) r (cnt' + cj) B V C h hltl
                hRr (by omega) (le_trans h1 (le_of_lt habup)) hrle.2
            exact ⟨B', V', C',
              by rw [habstep (some bowl) r (if_pos habup) (if_pos habup)]; exact habl,
              hC, he, hl, hh, hR⟩
          · obtain ⟨B', V', C', habl, hC, he, hl, hh, hR⟩ :=
              ihl bb bv (cnt + t.2.2) bb' bv' (cnt' + cj) B V C h hltl
                hRv' (by omega) h1 h2
            exact ⟨B', V', C',
              by rw [habstep bb' bv' (if_neg habup) (if_neg habup)]; exact habl,
              hC, he, hl, hh, hR⟩
      · rcases lt_or_le v beta with hvb | hvb
        · -- child strictly inside the window: both loops update and the
          -- loop switches to the synchronised phase
          have hr : r = v := hFS.1 hva hvb
          have hmup : bv < v := lt_of_le_of_lt (le_trans h1 h2) hva
          have habup : bv' < r := by rw [hr]; exact lt_of_le_of_lt h2 hva
          rw [if_pos hmup] at h
          obtain ⟨B', V', C', habl, hC, hsync1, hsync2, hRV⟩ :=
            ab_mm_loop_sync fuel hIH p beta hB rest (some bowl) v (cnt + t.2.2)
              (cnt' + cj) B V C h hltl hvRep hvb (by omega)
          have hVlb := mmLoop_le _ _ _ _ _ _ _ _ _ h
          refine ⟨B', V', C', ?_, hC, fun _ hVb => hsync1 hVb, fun hVa => ?_, hsync2, hRV⟩
          · simp only [abLoop, heq]
            rw [if_pos habup, if_pos habup, hr, Value.maxv_eq_max,
              max_eq_right (le_of_lt hva), if_neg (not_le_of_lt hvb)]
            exact habl
          · exact absurd (lt_of_lt_of_le hva (le_trans hVlb.1 hVa)) (lt_irrefl alpha)
        · -- child at or above beta: fail high, immediate cutoff
          have hrr := hFS.2.2 hvb
          have hmup : bv < v := lt_of_le_of_lt (le_trans h1 h2) hva
          have habup : bv' < r := lt_of_le_of_lt h2 (lt_of_lt_of_le hab hrr.1)
          rw [if_pos hmup] at h
          have hle := mmLoop_le _ _ _ _ _ _ _ _ _ h
          refine ⟨some bowl, r, cnt' + cj, ?_, by omega, fun _ hVb => ?_, fun hVa => ?_,
            fun _ => ⟨hrr.1, le_trans hrr.2 hle.1⟩, hRr⟩
          · simp only [abLoop, heq]
            rw [if_pos habup, if_pos habup, Value.maxv_eq_max,
              max_eq_right (le_of_lt (lt_of_lt_of_le hab hrr.1)), if_pos hrr.1]
          · exact absurd (lt_of_le_of_lt (le_trans hvb hle.1) hVb) (lt_irrefl beta)
          · exact absurd (lt_of_lt_of_le hva (le_trans hle.1 hVa)) (lt_irrefl alpha)
/-- Node-level refinement: at every fuel, on every open window,
`alpha_beta` (delta heuristic, unbounded depth) returns a fail-soft match
of the minmax result, never visits more nodes, and picks the same bowl
whenever the minmax value lies strictly inside the window. -/
theorem ab_mm (fuel : Nat) :
    ∀ (p : Position), p.wfSmall →
      ∀ (alpha beta : Value), alpha.Rep → beta.Rep → alpha < beta →
      ∀ (b : Option Nat) (v : Value) (c : Nat), minmaxF fuel p = some (b, v, c) →
      ∃ b' v' c', alphaBetaF deltaH fuel p alpha beta Depth.Infinite = some (b', v', c') ∧
        c' ≤ c ∧ FS alpha beta v v' ∧ v'.Rep ∧ (alpha < v → v < beta → b' = b) := by
  induction fuel with
  | zero =>
    intro p hp alpha beta hA hB hab b v c hmm
    exact absurd hmm (by simp [minmaxF])
  | succ fuel ih =>
    have hIH : ABIH fuel := by
      intro q hq alpha beta hA hB hab b v c hm
      obtain ⟨b', v', c', h1, h2, h3, h4, -⟩ := ih q hq alpha beta hA hB hab b v c hm
      exact ⟨b', v', c', h1, h2, h3, h4⟩
    intro p hp alpha beta hA hB hab b v c hmm
    simp only [minmaxF] at hmm
    split_ifs at hmm with hfin
    · simp only [Option.some_inj, Prod.mk.injEq] at hmm
      obtain ⟨hb, hv, hc⟩ := hmm
      refine ⟨none, Value.Actual p.scoreOf, 1, ?_, by omega, ?_, ?_, fun _ _ => hb⟩
      · simp [alphaBetaF, hfin]
      · rw [← hv]
        exact ⟨fun _ _ => rfl, fun h => ⟨le_refl _, h⟩, fun h => ⟨h, le_refl _⟩⟩
      · exact scoreOf_range p hp
    · obtain ⟨B', V', C', habl, hC, he, hl, hh, hR⟩ :=
        ab_mm_loop_low fuel hIH p alpha beta hA hB hab p.options none
          Value.NegativeInfinity 1 none Value.NegativeInfinity 1 b v c hmm
          (fun i hi => sow_wfSmall p i hp hi) trivial (le_refl 1) (le_refl _) (neg_le alpha)
      refine ⟨B', V', C', ?_, hC, ⟨fun h1 h2 => (he h1 h2).2, hl, hh⟩, hR,
        fun h1 h2 => (he h1 h2).1⟩
      simp only [alphaBetaF, hfin]
      rw [if_neg (by simp [Depth.is_zero])]
      exact habl

/-- Claim C1 counterexample: the claimed equivalence fails on boards whose
scores reach the edge of `i8`. On the position with captures `(126, 0)`
and bowls `[1, 2, 0, 1]` (130 stones in total), minmax at fuel 12 returns
bowl 1 with value 124 in 12 nodes, while alpha-beta on the full window
returns bowl 0 with the wrapped value -128 in 10 nodes: negating the
window bounds wraps at -128 and the pruning diverges. -/
theorem C1_equivalence_counterexample :
    ¬ ∀ (p : Position) (fuel : Nat) (b : Option Nat) (v : Value) (c : Nat),
        minmaxF fuel p = some (b, v, c) →
        ∃ c', alphaBetaF deltaH fuel p Value.NegativeInfinity Value.PositiveInfinity
            Depth.Infinite = some (b, v, c') ∧ c' ≤ c := by
  intro hall
  obtain ⟨c', habl, -⟩ := hall
    { player := .Red, size := 2, capture := (126, 0), bowls := [1, 2, 0, 1] } 12
    (some 1) (Value.Actual 124) 12 (by decide)
  have h2 : alphaBetaF deltaH 12
      { player := .Red, size := 2, capture := (126, 0), bowls := [1, 2, 0, 1] }
      Value.NegativeInfinity Value.PositiveInfinity Depth.Infinite =
      some (some 0, Value.Actual (-128), 10) := by decide
  rw [habl] at h2
  simp only [Option.some_inj, Prod.mk.injEq] at h2
  exact absurd h2.1 (by decide)

/-- Claim C1 (amended): on every well-formed position holding at most 127
stones in total — so that every score fits in `i8` without wrapping —
whenever an exhaustive MinMax run is defined (the fuel covers the game
tree), AlphaBeta with the default delta heuristic and unbounded depth,
started on the full window, selects the same bowl, returns the same
value, and visits at most as many nodes. -/
theorem C1_alphabeta_refines_minmax (p : Position) (fuel : Nat)
    (hwf : p.bowls.length = 2 * p.size) (hT : p.stoneTotal ≤ 127)
    (b : Option Nat) (v : Value) (c : Nat)
    (hmm : minmaxF fuel p = some (b, v, c)) :
    ∃ c', alphaBetaF deltaH fuel p Value.NegativeInfinity Value.PositiveInfinity
        Depth.Infinite = some (b, v, c') ∧ c' ≤ c := by
  obtain ⟨s, rfl, -, -⟩ := mm_value_rep fuel p ⟨hwf, hT⟩ b v c hmm
  obtain ⟨b', v', c', habl, hC, hFS, -, hbowl⟩ :=
    ab_mm fuel p ⟨hwf, hT⟩ Value.NegativeInfinity Value.PositiveInfinity trivial trivial
      (by decide) b _ c hmm
  have h1 : Value.NegativeInfinity < Value.Actual s := neg_lt_actual s
  have h2 : Value.Actual s < Value.PositiveInfinity := actual_lt_pos s
  refine ⟨c', ?_, hC⟩
  rw [habl, hFS.1 h1 h2, hbowl h1 h2]

/-- Witness for C1 at `[1, 0, 1, 0]` (2 stones in total) with fuel 3:
minmax returns `(Some 0, Actual 2)` visiting 2 nodes, and so does
alpha-beta. -/
theorem C1_alphabeta_refines_minmax_witness :
    ∃ c', alphaBetaF deltaH 3 (Position.ofList [1, 0, 1, 0]) Value.NegativeInfinity
        Value.PositiveInfinity Depth.Infinite = some (some 0, Value.Actual 2, c') ∧ c' ≤ 2 :=
  C1_alphabeta_refines_minmax (Position.ofList [1, 0, 1, 0]) 3 (by decide) (by decide)
    (some 0) (Value.Actual 2) 2 (by decide)

end Mancala
